import Mathlib

/-!
Verification model of the SQLite-backed resource cache in
`src/mcp/client/cache.rs` (ResourceCache and its helper functions).

Embedding choices:
* The SQLite `resources` table is a `List Row`; row order is irrelevant to the
  cache semantics (the `uri` column is unique, which is proved as an invariant).
* Timestamps are natural numbers: `Utc::now()` values are nanoseconds since the
  Unix epoch, and `timestamp_millis()` is floor division by 1000000.
* `serde_json::Value` metadata values are modelled by `JsonVal`: the cache code
  only ever inspects metadata values through `Value::as_str`, so a string
  constructor plus one abstract non-string constructor is a faithful
  abstraction.  Serializing a metadata map to `metadata_json` and parsing it
  back is the identity on the map, so rows store the map itself.
* `f64` values that the code computes (`hit_rate`, `cache_size_mb`) are
  modelled as rationals; the code recomputes them from integer counters at
  every update, so every stated invariant is about the dividing formula, not
  about floating-point rounding.
-/

namespace Cache

/-- Model of `serde_json::Value` as used by the cache: the code only inspects
metadata values via `as_str()`, so non-string values are collapsed into one
abstract constructor. -/
inductive JsonVal where
  | str (s : String)
  | notStr
deriving DecidableEq, Repr

/-- `serde_json::Value::as_str`. -/
def JsonVal.asStr : JsonVal → Option String
  | .str s => some s
  | .notStr => none

/-- Association-list model of `HashMap<String, serde_json::Value>`:
`get` returns the value of the first (unique) binding of the key. -/
def mapGet (m : List (String × JsonVal)) (k : String) : Option JsonVal :=
  (m.find? (fun p => p.1 == k)).map (·.2)

/-- `HashMap::insert`: replaces any existing binding of the key. -/
def mapInsert (m : List (String × JsonVal)) (k : String) (v : JsonVal) :
    List (String × JsonVal) :=
  (k, v) :: m.filter (fun p => p.1 != k)

/-- Modelled from the spec: boundary type `ResourceInfo` (§3 ResourceContent),
with exactly the fields the cache code reads: `uri`, optional `name`,
`description`, `mime_type`, and the metadata map. -/
structure ResourceInfo where
  uri : String
  name : Option String
  description : Option String
  mime_type : Option String
  metadata : List (String × JsonVal)
deriving DecidableEq, Repr

/-- Modelled from the spec: boundary type `ResourceContent` (§3): `info` plus
content bytes (`data`) and an optional encoding label. -/
structure ResourceContent where
  info : ResourceInfo
  data : List (Fin 256)
  encoding : Option String
deriving DecidableEq, Repr

/-- One row of the `resources` table (schema in `MIGRATIONS`, v1).
`metadata` holds the parsed form of the `metadata_json` text column. -/
structure Row where
  id : String
  uri : String
  content : List (Fin 256)
  content_type : Option String
  metadata : List (String × JsonVal)
  created_at : Nat
  accessed_at : Nat
  expires_at : Option Nat
  access_count : Nat
  size_bytes : Nat
deriving DecidableEq, Repr

/-- `CacheAnalytics` (in-memory, process-local). `last_cleanup` is a
millisecond timestamp. -/
structure CacheAnalytics where
  total_requests : Nat
  cache_hits : Nat
  cache_misses : Nat
  hit_rate : Rat
  cache_size_bytes : Nat
  resource_count : Nat
  eviction_count : Nat
  last_cleanup : Nat
deriving DecidableEq, Repr

/-- One row of the `cache_analytics` history table. -/
structure AnalyticsRow where
  timestamp : Nat
  hit_rate : Rat
  total_requests : Nat
  cache_size_mb : Rat
  eviction_count : Nat
deriving DecidableEq, Repr

/-- The mutable state of one `ResourceCache` instance together with its
database: the `resources` table, the `cache_analytics` history table, and the
in-memory analytics. -/
structure CacheState where
  rows : List Row
  cache_analytics : List AnalyticsRow
  analytics : CacheAnalytics
deriving DecidableEq, Repr

/-- Analytics as initialized in `ResourceCache::new` and reset in `clear`:
all counters zero, `hit_rate` 0.0, `last_cleanup = Utc::now()` (parameter). -/
def initialAnalytics (nowMs : Nat) : CacheAnalytics :=
  { total_requests := 0
    cache_hits := 0
    cache_misses := 0
    hit_rate := 0
    cache_size_bytes := 0
    resource_count := 0
    eviction_count := 0
    last_cleanup := nowMs }

/-- A freshly constructed cache over an empty database. -/
def initState : CacheState :=
  { rows := [], cache_analytics := [], analytics := initialAnalytics 0 }

/-- `DateTime::timestamp_millis()` on a nanosecond timestamp. -/
def tsMillis (ns : Nat) : Nat := ns / 1000000

/-! ## Charset and encoding resolution -/

/-- The character predicate of `value.trim_matches(|c| c == DQUOTE || c == SQUOTE)`
in `parse_charset`: double or single quote. -/
def isQuoteChar (c : Char) : Bool := c == '"' || c == '\x27'

/-- `str::trim_matches(p)`: strip all leading and trailing characters
satisfying `p`. -/
def trimMatches (p : Char → Bool) (l : List Char) : List Char :=
  ((l.dropWhile p).reverse.dropWhile p).reverse

/-- `str::trim` (strings in play are ASCII, where Rust's and Lean's
whitespace predicates agree). -/
def trimChars (l : List Char) : List Char :=
  trimMatches Char.isWhitespace l

/-- `str::split(sep)` for a one-character separator, on character lists. -/
def splitOnChar (sep : Char) : List Char → List (List Char)
  | [] => [[]]
  | c :: rest =>
    if c == sep then [] :: splitOnChar sep rest
    else
      match splitOnChar sep rest with
      | [] => [[c]]
      | h :: t => (c :: h) :: t

/-- `str::split_once(sep)`: split at the first occurrence, if any. -/
def splitOnceChar (sep : Char) : List Char → Option (List Char × List Char)
  | [] => none
  | c :: rest =>
    if c == sep then some ([], rest)
    else
      match splitOnceChar sep rest with
      | none => none
      | some (a, b) => some (c :: a, b)

/-- `str::eq_ignore_ascii_case` (Lean's `Char.toLower` lowercases exactly the
ASCII range, matching Rust's ASCII-only lowering). -/
def eqIgnoreAsciiCase (a b : List Char) : Bool :=
  a.map Char.toLower == b.map Char.toLower

/-- `parse_charset` (cache.rs): scan the `;`-separated parameters of a
content-type; for the first `key=value` (splitting the trimmed part at its
first `=`) whose trimmed key is `charset` case-insensitively, return the
value with surrounding quotes stripped and ASCII-lowercased. -/
def parse_charset (content_type : String) : Option String :=
  (splitOnChar ';' content_type.toList).findSome? fun part =>
    match splitOnceChar '=' (trimChars part) with
    | none => none
    | some (key, value) =>
      if eqIgnoreAsciiCase (trimChars key) "charset".toList then
        some (String.mk ((trimMatches isQuoteChar value).map Char.toLower))
      else
        none

/-- Encoding resolution in `get_resource`:
`metadata.get("encoding").and_then(as_str)` or else
`content_type.and_then(parse_charset)`. -/
def resolveEncoding (metadata : List (String × JsonVal)) (content_type : Option String) :
    Option String :=
  match (mapGet metadata "encoding").bind JsonVal.asStr with
  | some s => some s
  | none => content_type.bind parse_charset

/-! ## Store -/

/-- The metadata written by `store_resource_with_ttl`: the resource's metadata
map with the optional encoding label folded in under the reserved `encoding`
key. -/
def foldEncoding (r : ResourceContent) : List (String × JsonVal) :=
  match r.encoding with
  | some e => mapInsert r.info.metadata "encoding" (.str e)
  | none => r.info.metadata

/-- The row inserted by `store_resource_with_ttl` for resource `r` with the
freshly generated `id`, at wall-clock time `nowNs` (nanoseconds) with TTL
`ttlNs` (nanoseconds): `created_at = accessed_at = now.timestamp_millis()`,
`expires_at = (now + ttl).timestamp_millis()` unless the TTL is zero
(`expires_at = null`), the optional encoding folded into metadata under the
reserved `encoding` key, initial `access_count` 1, `size_bytes` the content
length. -/
def mkRow (r : ResourceContent) (id : String) (nowNs ttlNs : Nat) : Row :=
  { id := id
    uri := r.info.uri
    content := r.data
    content_type := r.info.mime_type
    metadata := foldEncoding r
    created_at := tsMillis nowNs
    accessed_at := tsMillis nowNs
    expires_at := if ttlNs = 0 then none else some (tsMillis (nowNs + ttlNs))
    access_count := 1
    size_bytes := r.data.length }

/-- The `cleanup_expired_resources` AFTER INSERT trigger (schema v1): delete
every row whose `expires_at` is non-null and `< strftime(%s,now) * 1000`;
`trigMs` is that second-resolution threshold in milliseconds. -/
def triggerKeep (trigMs : Nat) (row : Row) : Bool :=
  match row.expires_at with
  | some e => !(decide (e < trigMs))
  | none => true

/-- The deletion performed by the trigger: keep exactly the rows that are not
yet expired at the trigger's (second-resolution) clock. -/
def triggerSweep (trigMs : Nat) (rows : List Row) : List Row :=
  rows.filter (triggerKeep trigMs)

/-- `store_resource_with_ttl`: inside one transaction, `INSERT OR REPLACE`
keyed on the unique `uri` column (so any prior row with the same uri is
replaced), after which the AFTER INSERT trigger sweeps already-expired rows
(`trigS` is the trigger's `strftime(%s,now)` value in seconds).  The
in-memory size/count counters are bumped approximately. -/
def store_resource_with_ttl (r : ResourceContent) (id : String)
    (nowNs ttlNs trigS : Nat) (s : CacheState) : CacheState :=
  let row := mkRow r id nowNs ttlNs
  let rows := triggerSweep (trigS * 1000)
    (row :: s.rows.filter (fun x => x.uri != r.info.uri))
  { s with
    rows := rows
    analytics :=
      { s.analytics with
        resource_count := s.analytics.resource_count + 1
        cache_size_bytes := s.analytics.cache_size_bytes + row.size_bytes } }

/-! ## Reads -/

/-- The read-time expiry filter `expires_at IS NULL OR expires_at > now`
used by `get_resource`, `contains_resource`, `list_cached_resources` and
`search_resources`. -/
def visibleAt (nowMs : Nat) (row : Row) : Bool :=
  match row.expires_at with
  | none => true
  | some e => decide (nowMs < e)

/-- `hit_rate` as recomputed by `get_resource` on every request:
`hits / total_requests` when `total_requests > 0`, else `0.0`. -/
def hitRateOf (hits total : Nat) : Rat :=
  if total > 0 then (hits : Rat) / (total : Rat) else 0

/-- The `SELECT ... WHERE uri = ? AND (expires_at IS NULL OR expires_at > ?)`
row lookup of `get_resource`. -/
def lookupVisible (uri : String) (nowMs : Nat) (rows : List Row) : Option Row :=
  rows.find? fun row => row.uri == uri && visibleAt nowMs row

/-- `get_resource(uri)`: select the row for `uri` passing the expiry filter.
On a hit, bump `accessed_at`/`access_count` for that uri, rebuild the
`ResourceContent` (name/description pulled from metadata, mime type from the
`content_type` column, encoding resolved by `resolveEncoding`) and count a
hit; on a miss, change no row and count a miss.  Both branches recompute
`hit_rate`. -/
def get_resource (uri : String) (nowMs : Nat) (s : CacheState) :
    Option ResourceContent × CacheState :=
  match lookupVisible uri nowMs s.rows with
  | some row =>
    let rows := s.rows.map fun x =>
      if x.uri == uri then
        { x with accessed_at := nowMs, access_count := x.access_count + 1 }
      else x
    let info : ResourceInfo :=
      { uri := row.uri
        name := (mapGet row.metadata "name").bind JsonVal.asStr
        description := (mapGet row.metadata "description").bind JsonVal.asStr
        mime_type := row.content_type
        metadata := row.metadata }
    let a := s.analytics
    let total := a.total_requests + 1
    let hits := a.cache_hits + 1
    (some { info := info
            data := row.content
            encoding := resolveEncoding row.metadata row.content_type },
     { s with
       rows := rows
       analytics :=
         { a with
           total_requests := total
           cache_hits := hits
           hit_rate := hitRateOf hits total } })
  | none =>
    let a := s.analytics
    let total := a.total_requests + 1
    (none,
     { s with
       analytics :=
         { a with
           total_requests := total
           cache_misses := a.cache_misses + 1
           hit_rate := hitRateOf a.cache_hits total } })

/-- `contains_resource(uri)`: `COUNT(*) > 0` under the same expiry filter;
no state change. -/
def contains_resource (uri : String) (nowMs : Nat) (s : CacheState) : Bool :=
  s.rows.any fun row => row.uri == uri && visibleAt nowMs row

/-! ## Deletion -/

/-- `remove_resource(uri)`: `DELETE FROM resources WHERE uri = ?` with no
expiry filter; returns whether any row was deleted, and decrements the
approximate resource counter (saturating) when one was. -/
def remove_resource (uri : String) (s : CacheState) : Bool × CacheState :=
  let removed := s.rows.any fun row => row.uri == uri
  let rows := s.rows.filter fun row => row.uri != uri
  (removed,
   { s with
     rows := rows
     analytics :=
       if removed then
         { s.analytics with resource_count := s.analytics.resource_count - 1 }
       else s.analytics })

/-- `clear()`: delete all resource rows and all analytics history rows, and
reset the in-memory analytics to zero (`last_cleanup = Utc::now()`). -/
def clear (nowMs : Nat) (s : CacheState) : CacheState :=
  { s with
    rows := []
    cache_analytics := []
    analytics := initialAnalytics nowMs }

/-- The sweep condition of `cleanup_expired`:
`expires_at IS NOT NULL AND expires_at <= now`. -/
def sweepExpired (nowMs : Nat) (row : Row) : Bool :=
  match row.expires_at with
  | some e => decide (e ≤ nowMs)
  | none => false

/-- `update_analytics`: recompute `cache_size_bytes`/`resource_count` from
the table and append one immutable snapshot row (timestamp `histTs`,
current hit rate, total requests, size in MB, eviction count) to
`cache_analytics`. -/
def update_analytics (histTs : Nat) (s : CacheState) : CacheState :=
  let size : Nat := (s.rows.map (·.size_bytes)).sum
  let count := s.rows.length
  let a :=
    { s.analytics with cache_size_bytes := size, resource_count := count }
  { s with
    analytics := a
    cache_analytics := s.cache_analytics ++
      [{ timestamp := histTs
         hit_rate := a.hit_rate
         total_requests := a.total_requests
         cache_size_mb := (size : Rat) / (1024 * 1024)
         eviction_count := a.eviction_count }] }

/-- `cleanup_expired()`: delete every row with a non-null, passed
`expires_at`; return the number removed; bump `eviction_count`, set
`last_cleanup`, decrement the approximate resource counter, then run
`update_analytics` (history timestamp `histTs`). -/
def cleanup_expired (nowMs histTs : Nat) (s : CacheState) : Nat × CacheState :=
  let n := (s.rows.filter fun row => sweepExpired nowMs row).length
  let kept := s.rows.filter fun row => !(sweepExpired nowMs row)
  let s1 :=
    { s with
      rows := kept
      analytics :=
        { s.analytics with
          eviction_count := s.analytics.eviction_count + n
          last_cleanup := nowMs
          resource_count := s.analytics.resource_count - n } }
  (n, update_analytics histTs s1)

/-! ## Operation sequences

Every state-mutating public operation of `ResourceCache` (plus the read
operations, which leave the state unchanged or only touch access stats).
`list_cached_resources`, `search_resources`, `get_cache_size` and `compact`
never change the `resources` table or the in-memory analytics, so they are
represented by the identity and omitted from `Op`. -/

/-- One public cache operation with the wall-clock values it observes. -/
inductive Op where
  | store (r : ResourceContent) (id : String) (nowNs ttlNs trigS : Nat)
  | get (uri : String) (nowMs : Nat)
  | containsOp (uri : String) (nowMs : Nat)
  | removeOp (uri : String)
  | clearOp (nowMs : Nat)
  | cleanup (nowMs histTs : Nat)

/-- State transition of one operation. -/
def applyOp (s : CacheState) : Op → CacheState
  | .store r id nowNs ttlNs trigS => store_resource_with_ttl r id nowNs ttlNs trigS s
  | .get uri nowMs => (get_resource uri nowMs s).2
  | .containsOp _ _ => s
  | .removeOp uri => (remove_resource uri s).2
  | .clearOp nowMs => clear nowMs s
  | .cleanup nowMs histTs => (cleanup_expired nowMs histTs s).2

/-- Run a sequence of operations from a state. -/
def run (s : CacheState) (ops : List Op) : CacheState :=
  ops.foldl applyOp s

/-! ## Path normalization

`normalize_db_path` / `normalize_path_components` work on
`std::path::Component` sequences.  A path is modelled by its component list
(Unix rules: absolute iff it starts with `RootDir`).  `Path::join` of an
absolute directory and a relative path concatenates the component lists.
Rust's `components()` iterator already drops interior `.` components, but
since `normalize_path_components` skips every `CurDir` itself, feeding it the
raw concatenation is extensionally the same. -/

/-- `std::path::Component` (no Windows prefixes on Unix). -/
inductive PathComponent where
  | rootDir
  | curDir
  | parentDir
  | normal (s : String)
deriving DecidableEq, Repr

/-- `Path::is_absolute` on Unix: the path has a root. -/
def isAbsolutePath (p : List PathComponent) : Bool :=
  match p.head? with
  | some .rootDir => true
  | _ => false

/-- The component loop of `normalize_path_components`: skip `.`, pop the last
collected component on `..` (when non-empty), push everything else. -/
def npcStep (acc : List PathComponent) : PathComponent → List PathComponent
  | .curDir => acc
  | .parentDir => acc.dropLast
  | c => acc ++ [c]

/-- `normalize_path_components` viewed on component lists: lexically resolve
`.` and `..` without touching the filesystem. -/
def normalize_path_components (p : List PathComponent) : List PathComponent :=
  p.foldl npcStep []

/-- `PathBuf` reconstruction plus `to_string_lossy`: push each component,
separating with `/` (the root itself renders as `/`). -/
def renderPath (p : List PathComponent) : String :=
  p.foldl
    (fun acc c =>
      let s := match c with
        | .rootDir => "/"
        | .curDir => "."
        | .parentDir => ".."
        | .normal n => n
      if acc == "" then s
      else if acc.endsWith "/" then acc ++ s
      else acc ++ "/" ++ s)
    ""

/-- `normalize_db_path` in the branch where `canonicalize()` fails (the file
does not exist yet) and `current_dir()` succeeds, returning `cwd`: a relative
path is joined onto `cwd` and lexically normalized; an absolute path is
lexically normalized directly.  (The source's final fallback is unreachable
here because `is_relative` is the negation of `is_absolute`.) -/
def normalize_db_path (cwd p : List PathComponent) : String :=
  if isAbsolutePath p then renderPath (normalize_path_components p)
  else renderPath (normalize_path_components (cwd ++ p))

/-! ## Configuration validation -/

/-- `ClientError` (the variants `ResourceCache` produces). -/
inductive ClientError where
  | validation (msg : String)
  | pool (msg : String)
  | client (msg : String)
  | spawn (msg : String)
deriving DecidableEq, Repr

/-- `CacheConfig`.  Durations are in nanoseconds; connection counts are the
`u32` values. -/
structure CacheConfig where
  database_path : String
  default_ttl : Nat
  max_size_mb : Nat
  auto_cleanup : Bool
  cleanup_interval : Nat
  pool_min_connections : Option Nat
  pool_max_connections : Option Nat
  pool_connection_timeout : Option Nat
  pool_max_lifetime : Option Nat
deriving DecidableEq, Repr

/-- The validation prefix of `ResourceCache::new`, run before the connection
pool is built and before any filesystem access: reject an empty
`database_path`, then reject `pool_min_connections > pool_max_connections`
when both are set. -/
def validateConfig (c : CacheConfig) : Except ClientError Unit :=
  if c.database_path == "" then
    .error (.validation "database_path cannot be empty")
  else
    match c.pool_min_connections, c.pool_max_connections with
    | some mn, some mx =>
      if mn > mx then
        .error (.validation
          ("pool_min_connections (" ++ toString mn ++
           ") must be ≤ pool_max_connections (" ++ toString mx ++ ")"))
      else .ok ()
    | _, _ => .ok ()

/-! ## Invariants under scrutiny -/

/-- No two rows of the `resources` table share a `uri` (the `uri UNIQUE`
column constraint maintained by the upsert). -/
def uriUnique (rows : List Row) : Prop :=
  rows.Pairwise fun a b => a.uri ≠ b.uri

/-- The hit-rate bookkeeping invariant: requests split exactly into hits and
misses, and `hit_rate` is the value of the code's dividing formula on the
current counters. -/
def analyticsConsistent (a : CacheAnalytics) : Prop :=
  a.total_requests = a.cache_hits + a.cache_misses
  ∧ a.hit_rate = hitRateOf a.cache_hits a.total_requests

/-- A row's expiry is never before its creation. -/
def rowTimeWF (row : Row) : Prop :=
  ∀ e, row.expires_at = some e → row.created_at ≤ e

/-! ## Concrete fixtures for witnesses and counterexamples -/

/-- A minimal resource value. -/
def rEx : ResourceContent :=
  { info :=
      { uri := "u", name := none, description := none, mime_type := none,
        metadata := [] }
    data := [⟨72, by omega⟩, ⟨105, by omega⟩]
    encoding := none }

/-- An already-expired row (expiry at 1 ms). -/
def rowExpiredEx : Row :=
  { id := "i", uri := "u", content := [], content_type := none, metadata := []
    created_at := 0, accessed_at := 0, expires_at := some 1, access_count := 1
    size_bytes := 0 }

/-- A cache whose only row is expired. -/
def sExpiredEx : CacheState :=
  { rows := [rowExpiredEx], cache_analytics := [],
    analytics := initialAnalytics 0 }

/-- A configuration with `pool_min_connections > pool_max_connections`. -/
def cfgBadEx : CacheConfig :=
  { database_path := "cache.db", default_ttl := 0, max_size_mb := 100,
    auto_cleanup := true, cleanup_interval := 0,
    pool_min_connections := some 10, pool_max_connections := some 5,
    pool_connection_timeout := none, pool_max_lifetime := none }

/-- A second resource value with the same uri as `rEx` but different content. -/
def rEx2 : ResourceContent :=
  { info :=
      { uri := "u", name := none, description := none, mime_type := none,
        metadata := [] }
    data := [⟨66, by omega⟩]
    encoding := none }

/-- The state after storing `rEx` into a fresh cache. -/
def s1Ex : CacheState := store_resource_with_ttl rEx "id1" 0 0 0 initState

/-- Encoding resolution as the spec claim words it: if the reserved metadata
`encoding` key is *present*, the returned encoding is the value stored under
it (a non-string value yields no string encoding); only when the key is absent
does the charset parsed from the content-type apply.  Written from the claim's
words, for comparison against `resolveEncoding`, which follows the source. -/
def encodingPerSpecClaim (metadata : List (String × JsonVal))
    (content_type : Option String) : Option String :=
  match mapGet metadata "encoding" with
  | some v => v.asStr
  | none => content_type.bind parse_charset

/-! ## Helper lemmas -/

theorem visibleAt_eq_false_of_sweepExpired {nowMs : Nat} {row : Row}
    (h : sweepExpired nowMs row = true) : visibleAt nowMs row = false := by
  cases hx : row.expires_at with
  | none => simp [sweepExpired, hx] at h
  | some e =>
    simp [sweepExpired, hx] at h
    simp [visibleAt, hx]
    omega

theorem lookupVisible_eq_none_of_expired {rows : List Row} {uri : String}
    {nowMs : Nat}
    (hexp : ∀ row ∈ rows, row.uri = uri → sweepExpired nowMs row = true) :
    lookupVisible uri nowMs rows = none := by
  unfold lookupVisible
  rw [List.find?_eq_none]
  intro row hrow
  by_cases hu : row.uri = uri
  · simp [visibleAt_eq_false_of_sweepExpired (hexp row hrow hu)]
  · simp [hu]

theorem contains_eq_false_of_expired {s : CacheState} {uri : String}
    {nowMs : Nat}
    (hexp : ∀ row ∈ s.rows, row.uri = uri → sweepExpired nowMs row = true) :
    contains_resource uri nowMs s = false := by
  unfold contains_resource
  rw [List.any_eq_false]
  intro row hrow
  by_cases hu : row.uri = uri
  · simp [visibleAt_eq_false_of_sweepExpired (hexp row hrow hu)]
  · simp [hu]

theorem uriUnique_filter {rows : List Row} (p : Row → Bool)
    (h : uriUnique rows) : uriUnique (rows.filter p) :=
  List.Pairwise.sublist (List.filter_sublist rows) h

theorem uriUnique_triggerSweep {rows : List Row} (trigMs : Nat)
    (h : uriUnique rows) : uriUnique (triggerSweep trigMs rows) :=
  uriUnique_filter _ h

theorem uriUnique_store (r : ResourceContent) (id : String)
    (nowNs ttlNs trigS : Nat) {s : CacheState} (h : uriUnique s.rows) :
    uriUnique (store_resource_with_ttl r id nowNs ttlNs trigS s).rows := by
  refine uriUnique_triggerSweep _ ?_
  constructor
  · intro b hb
    have hmem := (List.mem_filter.mp hb).2
    have hne : b.uri ≠ r.info.uri := by simpa using hmem
    simpa [mkRow] using hne.symm
  · exact uriUnique_filter _ h

theorem uriUnique_get (uri : String) (nowMs : Nat) {s : CacheState}
    (h : uriUnique s.rows) : uriUnique (get_resource uri nowMs s).2.rows := by
  cases hk : lookupVisible uri nowMs s.rows with
  | none => simpa [get_resource, hk] using h
  | some row =>
    simp only [get_resource, hk, uriUnique]
    refine List.pairwise_map.mpr (h.imp ?_)
    intro a b hab
    by_cases ha : a.uri == uri <;> by_cases hb : b.uri == uri <;>
      simpa [ha, hb] using hab

theorem uriUnique_applyOp (op : Op) {s : CacheState} (h : uriUnique s.rows) :
    uriUnique (applyOp s op).rows := by
  cases op with
  | store r id nowNs ttlNs trigS => exact uriUnique_store r id nowNs ttlNs trigS h
  | get uri nowMs => exact uriUnique_get uri nowMs h
  | containsOp uri nowMs => exact h
  | removeOp uri => exact uriUnique_filter _ h
  | clearOp nowMs => simp [applyOp, clear, uriUnique]
  | cleanup nowMs histTs =>
    simpa [applyOp, cleanup_expired, update_analytics] using uriUnique_filter _ h

theorem uriUnique_run (ops : List Op) {s : CacheState} (h : uriUnique s.rows) :
    uriUnique (run s ops).rows := by
  induction ops generalizing s with
  | nil => exact h
  | cons op rest ih => exact ih (uriUnique_applyOp op h)

theorem hitRateOf_zero : hitRateOf 0 0 = 0 := by simp [hitRateOf]

theorem analyticsConsistent_applyOp (op : Op) {s : CacheState}
    (h : analyticsConsistent s.analytics) :
    analyticsConsistent (applyOp s op).analytics := by
  obtain ⟨h1, h2⟩ := h
  cases op with
  | store r id nowNs ttlNs trigS =>
    exact ⟨h1, h2⟩
  | get uri nowMs =>
    cases hk : lookupVisible uri nowMs s.rows with
    | none =>
      refine ⟨?_, ?_⟩ <;> simp [applyOp, get_resource, hk]
      omega
    | some row =>
      refine ⟨?_, ?_⟩ <;> simp [applyOp, get_resource, hk]
      omega
  | containsOp uri nowMs => exact ⟨h1, h2⟩
  | removeOp uri =>
    by_cases hr : s.rows.any fun row => row.uri == uri <;>
      simpa [applyOp, remove_resource, hr] using ⟨h1, h2⟩
  | clearOp nowMs =>
    exact ⟨rfl, hitRateOf_zero.symm⟩
  | cleanup nowMs histTs =>
    exact ⟨h1, h2⟩

theorem analyticsConsistent_run (ops : List Op) {s : CacheState}
    (h : analyticsConsistent s.analytics) :
    analyticsConsistent (run s ops).analytics := by
  induction ops generalizing s with
  | nil => exact h
  | cons op rest ih => exact ih (analyticsConsistent_applyOp op h)

theorem rowTimeWF_mkRow (r : ResourceContent) (id : String) (nowNs ttlNs : Nat) :
    rowTimeWF (mkRow r id nowNs ttlNs) := by
  intro e he
  by_cases h0 : ttlNs = 0
  · simp [mkRow, h0] at he
  · simp [mkRow, h0] at he
    subst he
    exact Nat.div_le_div_right (Nat.le_add_right _ _)

/-- All rows of a reachable state satisfy `rowTimeWF`. -/
def stateTimeWF (s : CacheState) : Prop := ∀ row ∈ s.rows, rowTimeWF row

theorem stateTimeWF_applyOp (op : Op) {s : CacheState} (h : stateTimeWF s) :
    stateTimeWF (applyOp s op) := by
  cases op with
  | store r id nowNs ttlNs trigS =>
    intro row hrow
    have hrow' := (List.mem_filter.mp hrow).1
    rcases List.mem_cons.mp hrow' with hnew | hold
    · subst hnew; exact rowTimeWF_mkRow r id nowNs ttlNs
    · exact h row (List.mem_filter.mp hold).1
  | get uri nowMs =>
    cases hk : lookupVisible uri nowMs s.rows with
    | none =>
      intro row hrow
      exact h row (by simpa [applyOp, get_resource, hk] using hrow)
    | some r0 =>
      intro row hrow
      simp only [applyOp, get_resource, hk] at hrow
      rcases List.mem_map.mp hrow with ⟨x, hx, hfx⟩
      have hwf := h x hx
      by_cases hu : x.uri == uri <;>
        · rw [← hfx]
          intro e he
          simp only [hu] at he ⊢
          exact hwf e he
  | containsOp uri nowMs => exact h
  | removeOp uri =>
    intro row hrow
    exact h row (List.mem_filter.mp hrow).1
  | clearOp nowMs =>
    intro row hrow
    simp [applyOp, clear] at hrow
  | cleanup nowMs histTs =>
    intro row hrow
    simp only [applyOp, cleanup_expired, update_analytics] at hrow
    exact h row (List.mem_filter.mp hrow).1

theorem stateTimeWF_run (ops : List Op) {s : CacheState} (h : stateTimeWF s) :
    stateTimeWF (run s ops) := by
  induction ops generalizing s with
  | nil => exact h
  | cons op rest ih => exact ih (stateTimeWF_applyOp op h)

theorem store_rows_eq (r : ResourceContent) (id : String)
    (nowNs ttlNs trigS : Nat) (s : CacheState)
    (hkeep : triggerKeep (trigS * 1000) (mkRow r id nowNs ttlNs) = true) :
    (store_resource_with_ttl r id nowNs ttlNs trigS s).rows
      = mkRow r id nowNs ttlNs
        :: triggerSweep (trigS * 1000)
            (s.rows.filter fun x => x.uri != r.info.uri) := by
  simp only [store_resource_with_ttl, triggerSweep]
  rw [List.filter_cons_of_pos hkeep]

theorem store_replaces (r : ResourceContent) (id : String)
    (nowNs ttlNs trigS : Nat) (s : CacheState) :
    ∀ row ∈ (store_resource_with_ttl r id nowNs ttlNs trigS s).rows,
      row.uri = r.info.uri → row = mkRow r id nowNs ttlNs := by
  intro row hrow hu
  simp only [store_resource_with_ttl, triggerSweep] at hrow
  have h1 := (List.mem_filter.mp hrow).1
  rcases List.mem_cons.mp h1 with h | h
  · exact h
  · have h2 := (List.mem_filter.mp h).2
    simp [hu] at h2

theorem store_then_get (r : ResourceContent) (id : String)
    (nowNs ttlNs trigS nowG : Nat) (s : CacheState)
    (hLive : ttlNs = 0
      ∨ (trigS * 1000 ≤ nowG ∧ nowG < tsMillis (nowNs + ttlNs))) :
    (get_resource r.info.uri nowG
        (store_resource_with_ttl r id nowNs ttlNs trigS s)).1
      = some
          { info :=
              { uri := r.info.uri
                name := (mapGet (foldEncoding r) "name").bind JsonVal.asStr
                description :=
                  (mapGet (foldEncoding r) "description").bind JsonVal.asStr
                mime_type := r.info.mime_type
                metadata := foldEncoding r }
            data := r.data
            encoding := resolveEncoding (foldEncoding r) r.info.mime_type } := by
  have hkeep : triggerKeep (trigS * 1000) (mkRow r id nowNs ttlNs) = true := by
    rcases hLive with h0 | ⟨hord, hlt⟩
    · simp [triggerKeep, mkRow, h0]
    · by_cases h0 : ttlNs = 0
      · simp [triggerKeep, mkRow, h0]
      · simp [triggerKeep, mkRow, h0]
        omega
  have hvis : visibleAt nowG (mkRow r id nowNs ttlNs) = true := by
    rcases hLive with h0 | ⟨hord, hlt⟩
    · simp [visibleAt, mkRow, h0]
    · by_cases h0 : ttlNs = 0
      · simp [visibleAt, mkRow, h0]
      · simp [visibleAt, mkRow, h0]
        omega
  have hfind : lookupVisible r.info.uri nowG
      (store_resource_with_ttl r id nowNs ttlNs trigS s).rows
      = some (mkRow r id nowNs ttlNs) := by
    rw [store_rows_eq r id nowNs ttlNs trigS s hkeep]
    unfold lookupVisible
    apply List.find?_cons_of_pos
    have huri : ((mkRow r id nowNs ttlNs).uri == r.info.uri) = true := by
      simp [mkRow]
    simp [huri, hvis]
  simp [get_resource, hfind, mkRow]

/-! ## Claims -/

/-- C1: Round-trip.  For every prior cache state, resource value and TTL not
yet expired at the time of the read (and a read clock not before the insert
trigger's clock), `store(resource, ttl)` followed by `get(resource.info.uri)`
returns some content whose bytes equal the stored bytes, whose content type
equals the stored mime type, and whose derived encoding equals the encoding
derived at store time from the folded metadata and the mime type. -/
theorem claim_C1 (s : CacheState) (r : ResourceContent) (id : String)
    (nowNs ttlNs trigS nowG : Nat)
    (hOrder : trigS * 1000 ≤ nowG)
    (hLive : ttlNs = 0 ∨ nowG < tsMillis (nowNs + ttlNs)) :
    ∃ out,
      (get_resource r.info.uri nowG
          (store_resource_with_ttl r id nowNs ttlNs trigS s)).1 = some out
      ∧ out.data = r.data
      ∧ out.info.mime_type = r.info.mime_type
      ∧ out.encoding = resolveEncoding (foldEncoding r) r.info.mime_type := by
  refine ⟨_, store_then_get r id nowNs ttlNs trigS nowG s ?_, rfl, rfl, rfl⟩
  rcases hLive with h0 | hlt
  · exact Or.inl h0
  · exact Or.inr ⟨hOrder, hlt⟩

theorem claim_C1_witness :
    (0 * 1000 ≤ 5 ∧ ((0 : Nat) = 0 ∨ 5 < tsMillis (0 + 0)))
    ∧ ∃ out,
        (get_resource rEx.info.uri 5
            (store_resource_with_ttl rEx "id1" 0 0 0 initState)).1 = some out
        ∧ out.data = rEx.data
        ∧ out.info.mime_type = rEx.info.mime_type
        ∧ out.encoding = resolveEncoding (foldEncoding rEx) rEx.info.mime_type :=
  ⟨⟨by omega, Or.inl rfl⟩,
   claim_C1 initState rEx "id1" 0 0 0 5 (by omega) (Or.inl rfl)⟩

/-- C2: Expiry is a read-time filter, not a deletion.  When every row for a
uri has a non-null, passed `expires_at`, `get_resource` returns none and
leaves the table's rows unchanged, `contains_resource` is false, and
`cleanup_expired` keeps exactly the rows without a non-null passed
`expires_at`, returning the number of rows it removed. -/
theorem claim_C2 (s : CacheState) (uri : String) (nowMs histTs : Nat)
    (hexp : ∀ row ∈ s.rows, row.uri = uri → sweepExpired nowMs row = true) :
    (get_resource uri nowMs s).1 = none
    ∧ (get_resource uri nowMs s).2.rows = s.rows
    ∧ contains_resource uri nowMs s = false
    ∧ (∀ row, row ∈ (cleanup_expired nowMs histTs s).2.rows ↔
        (row ∈ s.rows ∧ sweepExpired nowMs row = false))
    ∧ (cleanup_expired nowMs histTs s).1
        = (s.rows.filter fun row => sweepExpired nowMs row).length := by
  have hnone := lookupVisible_eq_none_of_expired hexp
  refine ⟨?_, ?_, contains_eq_false_of_expired hexp, ?_, rfl⟩
  · simp [get_resource, hnone]
  · simp [get_resource, hnone]
  · intro row
    simp [cleanup_expired, update_analytics, List.mem_filter]

theorem claim_C2_witness :
    (∀ row ∈ sExpiredEx.rows, row.uri = "u" → sweepExpired 5 row = true)
    ∧ (get_resource "u" 5 sExpiredEx).1 = none
    ∧ contains_resource "u" 5 sExpiredEx = false
    ∧ (cleanup_expired 5 6 sExpiredEx).1 = 1 := by
  have h := claim_C2 sExpiredEx "u" 5 6 (by decide)
  refine ⟨by decide, h.1, h.2.2.1, ?_⟩
  rw [h.2.2.2.2]
  decide

/-- C3: Upsert semantics.  After any sequence of operations from a fresh
cache, rows have pairwise distinct uris (at most one row per uri); and
immediately after any store, every row carrying the stored uri is exactly the
newly inserted row, so a second store to the same uri with different content
has replaced the prior row. -/
theorem claim_C3 :
    (∀ ops : List Op, uriUnique (run initState ops).rows)
    ∧ ∀ (s : CacheState) (r : ResourceContent) (id : String)
        (nowNs ttlNs trigS : Nat),
        ∀ row ∈ (store_resource_with_ttl r id nowNs ttlNs trigS s).rows,
          row.uri = r.info.uri → row = mkRow r id nowNs ttlNs := by
  constructor
  · intro ops
    exact uriUnique_run ops (by simp [initState, uriUnique])
  · intro s r id nowNs ttlNs trigS
    exact store_replaces r id nowNs ttlNs trigS s

theorem claim_C3_witness :
    mkRow rEx2 "id2" 0 0 ∈ (store_resource_with_ttl rEx2 "id2" 0 0 0 s1Ex).rows
    ∧ (mkRow rEx2 "id2" 0 0).uri = rEx2.info.uri
    ∧ mkRow rEx2 "id2" 0 0 = mkRow rEx2 "id2" 0 0 :=
  ⟨by decide, by decide,
   claim_C3.2 s1Ex rEx2 "id2" 0 0 0 (mkRow rEx2 "id2" 0 0) (by decide)
     (by decide)⟩

/-- C4: Hit-rate invariant.  After every operation sequence from a fresh
cache, `total_requests = cache_hits + cache_misses`;
`hit_rate = cache_hits / total_requests` when `total_requests > 0` and `0`
when `total_requests = 0`; in particular one hit and zero misses give
`hit_rate = 1`. -/
theorem claim_C4 (ops : List Op) :
    (run initState ops).analytics.total_requests
      = (run initState ops).analytics.cache_hits
        + (run initState ops).analytics.cache_misses
    ∧ (0 < (run initState ops).analytics.total_requests →
        (run initState ops).analytics.hit_rate
          = ((run initState ops).analytics.cache_hits : Rat)
            / ((run initState ops).analytics.total_requests : Rat))
    ∧ ((run initState ops).analytics.total_requests = 0 →
        (run initState ops).analytics.hit_rate = 0)
    ∧ ((run initState ops).analytics.cache_hits = 1
        ∧ (run initState ops).analytics.cache_misses = 0 →
        (run initState ops).analytics.hit_rate = 1) := by
  obtain ⟨h1, h2⟩ :=
    analyticsConsistent_run ops (s := initState) ⟨rfl, hitRateOf_zero.symm⟩
  refine ⟨h1, ?_, ?_, ?_⟩
  · intro hpos
    rw [h2, hitRateOf, if_pos hpos]
  · intro h0
    rw [h2, h0, hitRateOf]
    simp
  · rintro ⟨hh, hm⟩
    have ht : (run initState ops).analytics.total_requests = 1 := by omega
    rw [h2, ht, hh, hitRateOf]
    norm_num

theorem claim_C4_witness :
    ((run initState [Op.store rEx "i" 0 0 0, Op.get "u" 5]).analytics.cache_hits = 1
      ∧ (run initState [Op.store rEx "i" 0 0 0, Op.get "u" 5]).analytics.cache_misses = 0)
    ∧ (run initState [Op.store rEx "i" 0 0 0, Op.get "u" 5]).analytics.hit_rate = 1 :=
  ⟨by decide, (claim_C4 [Op.store rEx "i" 0 0 0, Op.get "u" 5]).2.2.2 (by decide)⟩

/-- C5 (counterexample): the claim "expires_at is strictly after created_at"
fails for a sub-millisecond TTL.  Storing with TTL = 1000 ns (1 µs, a nonzero
duration, so `expires_at` is present) at wall-clock 0 persists a row whose
`expires_at` equals its `created_at` (both 0 ms), which is not strictly
after. -/
theorem claim_C5_counterexample :
    ∃ row ∈ (store_resource_with_ttl rEx "id1" 0 1000 0 initState).rows,
      row.expires_at = some row.created_at
      ∧ ¬ row.created_at < row.created_at := by decide

/-- C5 (amended): for every persisted record with `expires_at` present,
`expires_at` is at least `created_at`; it is strictly after whenever the TTL
is at least one millisecond. -/
theorem claim_C5 :
    (∀ ops : List Op, ∀ row ∈ (run initState ops).rows, ∀ e,
        row.expires_at = some e → row.created_at ≤ e)
    ∧ (∀ (r : ResourceContent) (id : String) (nowNs ttlNs : Nat),
        1000000 ≤ ttlNs →
          (mkRow r id nowNs ttlNs).expires_at = some (tsMillis (nowNs + ttlNs))
          ∧ (mkRow r id nowNs ttlNs).created_at < tsMillis (nowNs + ttlNs)) := by
  constructor
  · intro ops row hrow e he
    refine stateTimeWF_run ops (s := initState) ?_ row hrow e he
    intro row h
    simp [initState] at h
  · intro r id nowNs ttlNs httl
    have hne : ttlNs ≠ 0 := by omega
    refine ⟨by simp [mkRow, hne], ?_⟩
    show tsMillis nowNs < tsMillis (nowNs + ttlNs)
    calc tsMillis nowNs
        < tsMillis nowNs + 1 := Nat.lt_succ_self _
      _ = tsMillis (nowNs + 1000000) := by
          unfold tsMillis
          rw [Nat.add_div_right _ (by omega)]
      _ ≤ tsMillis (nowNs + ttlNs) := Nat.div_le_div_right (by omega)

theorem claim_C5_witness :
    (1000000 ≤ 1000000)
    ∧ (mkRow rEx "w" 0 1000000).expires_at = some (tsMillis (0 + 1000000))
    ∧ (mkRow rEx "w" 0 1000000).created_at < tsMillis (0 + 1000000) := by
  have h := claim_C5.2 rEx "w" 0 1000000 (le_refl _)
  exact ⟨le_refl _, h.1, h.2⟩

/-- C6: Zero TTL means never expires.  Storing with the zero duration persists
a row with a null `expires_at`, and a get at an arbitrary later clock still
returns the resource's bytes. -/
theorem claim_C6 (s : CacheState) (r : ResourceContent) (id : String)
    (nowNs trigS nowG : Nat) :
    (mkRow r id nowNs 0).expires_at = none
    ∧ mkRow r id nowNs 0 ∈ (store_resource_with_ttl r id nowNs 0 trigS s).rows
    ∧ ∃ out,
        (get_resource r.info.uri nowG
            (store_resource_with_ttl r id nowNs 0 trigS s)).1 = some out
        ∧ out.data = r.data := by
  have hkeep : triggerKeep (trigS * 1000) (mkRow r id nowNs 0) = true := by
    simp [triggerKeep, mkRow]
  refine ⟨rfl, ?_,
    ⟨_, store_then_get r id nowNs 0 trigS nowG s (Or.inl rfl), rfl⟩⟩
  rw [store_rows_eq r id nowNs 0 trigS s hkeep]
  exact List.mem_cons_self _ _

/-- C7: Path normalization collapses spellings.  For an absolute current
directory, the `./name` spelling, the bare `name` spelling and the absolute
`cwd/name` spelling of a (non-existent, hence lexically normalized) file all
normalize to the same string. -/
theorem claim_C7 (cwd : List PathComponent) (name : String)
    (habs : cwd.head? = some .rootDir) :
    normalize_db_path cwd [.curDir, .normal name]
      = normalize_db_path cwd [.normal name]
    ∧ normalize_db_path cwd (cwd ++ [.normal name])
      = normalize_db_path cwd [.normal name] := by
  obtain ⟨tl, rfl⟩ : ∃ tl, cwd = .rootDir :: tl := by
    cases cwd with
    | nil => simp at habs
    | cons a tl =>
      simp at habs
      exact ⟨tl, by rw [habs]⟩
  constructor
  · simp only [normalize_db_path, isAbsolutePath]
    simp [normalize_path_components, List.foldl_append, npcStep]
  · simp only [normalize_db_path, isAbsolutePath]
    simp

theorem claim_C7_witness :
    ([PathComponent.rootDir, PathComponent.normal "home"].head?
      = some PathComponent.rootDir)
    ∧ normalize_db_path [.rootDir, .normal "home"] [.curDir, .normal "db.sqlite"]
        = normalize_db_path [.rootDir, .normal "home"] [.normal "db.sqlite"]
    ∧ normalize_db_path [.rootDir, .normal "home"]
          ([.rootDir, .normal "home"] ++ [.normal "db.sqlite"])
        = normalize_db_path [.rootDir, .normal "home"] [.normal "db.sqlite"] :=
  ⟨rfl,
   (claim_C7 [.rootDir, .normal "home"] "db.sqlite" rfl).1,
   (claim_C7 [.rootDir, .normal "home"] "db.sqlite" rfl).2⟩

/-- C8 (counterexample): the claimed precedence "the returned encoding is the
value stored under the reserved metadata encoding key if present" fails when
the key is present but holds a non-string JSON value: the code then falls
back to the charset parsed from the content-type.  At metadata
`[(encoding, notStr)]` and content type `text/html; Charset="UTF-8"` the key
is present, yet the returned encoding is `utf-8`, the charset fallback — not
the stored value (which is not a string at all), contradicting the claimed
per-spec resolution. -/
theorem claim_C8_counterexample :
    mapGet [("encoding", JsonVal.notStr)] "encoding" = some .notStr
    ∧ resolveEncoding [("encoding", JsonVal.notStr)]
        (some "text/html; Charset=\"UTF-8\"") = some "utf-8"
    ∧ encodingPerSpecClaim [("encoding", JsonVal.notStr)]
          (some "text/html; Charset=\"UTF-8\"")
        ≠ resolveEncoding [("encoding", JsonVal.notStr)]
            (some "text/html; Charset=\"UTF-8\"") := by
  refine ⟨rfl, rfl, ?_⟩
  decide

/-- C8 (amended): the returned encoding is the *string* value stored under
the reserved metadata encoding key when that key holds a string; when the key
is absent or holds a non-string, it is the charset parsed case-insensitively
from the content-type with quotes stripped and the value lowercased (absent
when the content-type is absent or carries no charset); in particular
`text/html; Charset="UTF-8"` yields `utf-8`. -/
theorem claim_C8 (metadata : List (String × JsonVal))
    (content_type : Option String) :
    (∀ e, mapGet metadata "encoding" = some (.str e) →
      resolveEncoding metadata content_type = some e)
    ∧ ((mapGet metadata "encoding").bind JsonVal.asStr = none →
      resolveEncoding metadata content_type = content_type.bind parse_charset)
    ∧ parse_charset "text/html; Charset=\"UTF-8\"" = some "utf-8" := by
  refine ⟨?_, ?_, by decide⟩
  · intro e he
    simp [resolveEncoding, he, JsonVal.asStr]
  · intro hn
    simp [resolveEncoding, hn]

theorem claim_C8_witness :
    mapGet [("encoding", JsonVal.str "latin-1")] "encoding"
      = some (.str "latin-1")
    ∧ resolveEncoding [("encoding", JsonVal.str "latin-1")]
        (some "text/html; Charset=\"UTF-8\"") = some "latin-1" :=
  ⟨rfl,
   (claim_C8 [("encoding", JsonVal.str "latin-1")]
       (some "text/html; Charset=\"UTF-8\"")).1 "latin-1" rfl⟩

/-- C9: Fail-fast validation.  The construction-time checks reject exactly
the configurations whose storage path is empty or whose pool bounds are both
set with min exceeding max, always with a Validation error; every other
configuration passes both checks (the validation stage either succeeds or
yields a Validation error, before any pool or filesystem activity is
modelled). -/
theorem claim_C9 (c : CacheConfig) :
    ((c.database_path = ""
        ∨ ∃ mn mx, c.pool_min_connections = some mn
            ∧ c.pool_max_connections = some mx ∧ mx < mn)
      ↔ ∃ msg, validateConfig c = .error (.validation msg))
    ∧ (validateConfig c = .ok ()
        ∨ ∃ msg, validateConfig c = .error (.validation msg)) := by
  by_cases hp : c.database_path = ""
  · have hbeq : (c.database_path == "") = true := by simp [hp]
    have hval : validateConfig c
        = .error (.validation "database_path cannot be empty") := by
      simp [validateConfig, hbeq]
    exact ⟨⟨fun _ => ⟨_, hval⟩, fun _ => Or.inl hp⟩, Or.inr ⟨_, hval⟩⟩
  · have hbeq : (c.database_path == "") = false := by simp [hp]
    cases hmn : c.pool_min_connections with
    | none =>
      have hval : validateConfig c = .ok () := by
        simp [validateConfig, hbeq, hmn]
      refine ⟨⟨?_, ?_⟩, Or.inl hval⟩
      · rintro (h | ⟨mn, mx, hmn', _, _⟩)
        · exact absurd h hp
        · exact absurd hmn' (by simp)
      · rintro ⟨msg, hmsg⟩
        rw [hval] at hmsg
        exact absurd hmsg (by simp)
    | some mn =>
      cases hmx : c.pool_max_connections with
      | none =>
        have hval : validateConfig c = .ok () := by
          simp [validateConfig, hbeq, hmn, hmx]
        refine ⟨⟨?_, ?_⟩, Or.inl hval⟩
        · rintro (h | ⟨mn', mx', _, hmx', _⟩)
          · exact absurd h hp
          · exact absurd hmx' (by simp)
        · rintro ⟨msg, hmsg⟩
          rw [hval] at hmsg
          exact absurd hmsg (by simp)
      | some mx =>
        by_cases hlt : mn > mx
        · have hval : validateConfig c
              = .error (.validation
                  ("pool_min_connections (" ++ toString mn ++
                   ") must be \u2264 pool_max_connections (" ++ toString mx ++
                   ")")) := by
            simp [validateConfig, hbeq, hmn, hmx, hlt]
          exact ⟨⟨fun _ => ⟨_, hval⟩,
              fun _ => Or.inr ⟨mn, mx, rfl, rfl, hlt⟩⟩,
            Or.inr ⟨_, hval⟩⟩
        · have hval : validateConfig c = .ok () := by
            simp [validateConfig, hbeq, hmn, hmx, hlt]
          refine ⟨⟨?_, ?_⟩, Or.inl hval⟩
          · rintro (h | ⟨mn', mx', hmn', hmx', hlt'⟩)
            · exact absurd h hp
            · injection hmn' with h1
              injection hmx' with h2
              subst h1
              subst h2
              exact absurd hlt' (by omega)
          · rintro ⟨msg, hmsg⟩
            rw [hval] at hmsg
            exact absurd hmsg (by simp)

theorem claim_C9_witness :
    ∃ msg, validateConfig cfgBadEx = .error (.validation msg) :=
  (claim_C9 cfgBadEx).1.mp (Or.inr ⟨10, 5, rfl, rfl, by omega⟩)

/-- C10 (implicit): `remove_resource` applies no expiry filter.  When a uri's
row exists but every row for it has expired, `contains_resource` is false yet
`remove_resource` returns true; and in general the return value of
`remove_resource` reports physical row deletion — it is true exactly when a
row with the uri existed, visible or not. -/
theorem claim_C10 (s : CacheState) (uri : String) (nowMs : Nat)
    (hex : (s.rows.any fun row => row.uri == uri) = true)
    (hexp : ∀ row ∈ s.rows, row.uri = uri → sweepExpired nowMs row = true) :
    contains_resource uri nowMs s = false
    ∧ (remove_resource uri s).1 = true
    ∧ ((remove_resource uri s).1 = true ↔ ∃ row ∈ s.rows, row.uri = uri) := by
  refine ⟨contains_eq_false_of_expired hexp, hex, ?_⟩
  show (s.rows.any fun row => row.uri == uri) = true ↔ _
  rw [List.any_eq_true]
  constructor
  · rintro ⟨row, hrow, hb⟩
    exact ⟨row, hrow, by simpa using hb⟩
  · rintro ⟨row, hrow, hb⟩
    exact ⟨row, hrow, by simpa using hb⟩

theorem claim_C10_witness :
    contains_resource "u" 5 sExpiredEx = false
    ∧ (remove_resource "u" sExpiredEx).1 = true :=
  ⟨(claim_C10 sExpiredEx "u" 5 (by decide) (by decide)).1,
   (claim_C10 sExpiredEx "u" 5 (by decide) (by decide)).2.1⟩

end Cache
